import Mathlib

/-!
Verification development for the product versioning and selection engine of
`eewperformance/comcat.py` (classes `DetailEvent` and `Product`).

The embedding models:
* `DetailEvent.get_product` (comcat.py lines 213-326): the per-source version
  table built over a numpy structured array, source filtering
  (`preferred` / `all` / explicit source id), and version resolution
  (`VersionOption.LAST/FIRST/ALL/PREFERRED`).
* `Product.get_content_name` / `get_content_url` (lines 425-479): the
  shortest-matching-content scan with its 1000-character sentinel.
* The origin-time decomposition of `DetailEvent.time` / `Product.update_time`
  (lines 140-150 and 358-368): `T // 1000` and the millisecond remainder.
* The shallow `dict.copy()` in `Product.__init__` (line 344), via a small
  explicit store of dictionaries so that aliasing of nested mappings is
  observable.

Python `//` on ints is floor division, modeled with `Int.fdiv`.  numpy "S64"
source fields compare bytewise, modeled by comparing `String.data`
(`List Char`) lexicographically.  The regex test `re.search(regexp + "$", k)`
and the file-name derivation `urlparse(url).path.split("/")[-1]` are external
to the scanning algorithm and are modeled as abstract function parameters
`isMatch : String → Bool` and `derive : String → String`.

Python exceptions raised by `get_product` are modeled by an explicit error
type distinguishing the raise sites:
* `noProductAttr`: `AttributeError` "Event has no product of type" (line 228),
* `noSourceAttr`: `AttributeError` "No products found for source" (line 268),
* `argmaxValueError`: `ValueError` raised by `numpy.argmax` on an empty
  array (line 257 when the submission list is empty),
* `iterrowsAttr`: `AttributeError` raised because numpy structured arrays
  have no `iterrows` method (lines 293 and 318 call `df.iterrows()`, a
  pandas method left over after pandas was removed),
* `indexError`: Python `IndexError` from `df[-1]` / `df[0]` / list indexing.

numpy's in-place `.sort` is an unstable quicksort; the model uses
`List.insertionSort`, a deterministic (stable) sort.  Every concrete input
used in a theorem below has pairwise-distinct sort keys, so the modeled sort
order coincides with numpy's regardless of stability.
-/

namespace EEWComcat

/-- The `VersionOption` enum of comcat.py (LAST=1, FIRST=2, ALL=3, PREFERRED=4). -/
inductive VersionOption
  | LAST
  | FIRST
  | ALL
  | PREFERRED
deriving DecidableEq, Repr

/-- One raw product submission: the scalar fields of one element of
`properties.products[typeName]` that `get_product` reads
(`preferredWeight`, `source`, `updateTime`). -/
structure Submission where
  preferredWeight : Int
  source : String
  updateTime : Int
deriving DecidableEq, Repr

/-- One row of the numpy structured array `df` built in `get_product`
(dtype weight/source/time/index/version, comcat.py lines 230-243). -/
structure Row where
  weight : Int
  source : String
  time : Int
  index : Nat
  version : Nat
deriving DecidableEq, Repr

/-- The (source, time) lexicographic comparison behind
`df.sort(order=["source", "time"])`.  numpy "S64" fields compare bytewise,
which for these ASCII ids is the `List Char` order on `String.data`. -/
def rowLE (a b : Row) : Prop :=
  a.source.data < b.source.data ∨ (a.source = b.source ∧ a.time ≤ b.time)

instance : DecidableRel rowLE := fun _a _b =>
  inferInstanceAs (Decidable (_ ∨ _))

/-- The (weight, time) lexicographic comparison behind
`df.sort(order=["weight", "time"])`. -/
def wtLE (a b : Row) : Prop :=
  a.weight < b.weight ∨ (a.weight = b.weight ∧ a.time ≤ b.time)

instance : DecidableRel wtLE := fun _a _b =>
  inferInstanceAs (Decidable (_ ∨ _))

/-- The time comparison behind `df.sort(order="time")`. -/
def timeLE (a b : Row) : Prop := a.time ≤ b.time

instance : DecidableRel timeLE := fun _a _b =>
  inferInstanceAs (Decidable (_ ≤ _))

theorem rowLE_trans {a b c : Row} (h1 : rowLE a b) (h2 : rowLE b c) : rowLE a c := by
  rcases h1 with h1 | ⟨h1e, h1t⟩ <;> rcases h2 with h2 | ⟨h2e, h2t⟩
  · exact Or.inl (lt_trans h1 h2)
  · exact Or.inl (h2e ▸ h1)
  · exact Or.inl (h1e ▸ h2)
  · exact Or.inr ⟨h1e.trans h2e, le_trans h1t h2t⟩

theorem rowLE_total (a b : Row) : rowLE a b ∨ rowLE b a := by
  rcases lt_trichotomy a.source.data b.source.data with h | h | h
  · exact Or.inl (Or.inl h)
  · have hs : a.source = b.source := by
      cases a with | mk w s t i v => cases b with | mk w' s' t' i' v' =>
      cases s; cases s'; simp only at h; simp [h]
    rcases le_total a.time b.time with ht | ht
    · exact Or.inl (Or.inr ⟨hs, ht⟩)
    · exact Or.inr (Or.inr ⟨hs.symm, ht⟩)
  · exact Or.inr (Or.inl h)

instance : IsTrans Row rowLE := ⟨fun _ _ _ => rowLE_trans⟩
instance : IsTotal Row rowLE := ⟨rowLE_total⟩

theorem wtLE_trans {a b c : Row} (h1 : wtLE a b) (h2 : wtLE b c) : wtLE a c := by
  rcases h1 with h1 | ⟨h1e, h1t⟩ <;> rcases h2 with h2 | ⟨h2e, h2t⟩
  · exact Or.inl (lt_trans h1 h2)
  · exact Or.inl (h2e ▸ h1)
  · exact Or.inl (h1e ▸ h2)
  · exact Or.inr ⟨h1e.trans h2e, le_trans h1t h2t⟩

theorem wtLE_total (a b : Row) : wtLE a b ∨ wtLE b a := by
  rcases lt_trichotomy a.weight b.weight with h | h | h
  · exact Or.inl (Or.inl h)
  · rcases le_total a.time b.time with ht | ht
    · exact Or.inl (Or.inr ⟨h, ht⟩)
    · exact Or.inr (Or.inr ⟨h.symm, ht⟩)
  · exact Or.inr (Or.inl h)

instance : IsTrans Row wtLE := ⟨fun _ _ _ => wtLE_trans⟩
instance : IsTotal Row wtLE := ⟨wtLE_total⟩

instance : IsTrans Row timeLE := ⟨fun _ _ _ h1 h2 => le_trans h1 h2⟩
instance : IsTotal Row timeLE := ⟨fun a b => le_total a.time b.time⟩

/-- Models `df.sort(order=["source", "time"])` (comcat.py line 246). -/
def sortRows (l : List Row) : List Row := List.insertionSort rowLE l

/-- Models `df.sort(order="time")` (comcat.py lines 260, 265, 275). -/
def sortTime (l : List Row) : List Row := List.insertionSort timeLE l

/-- Models `df.sort(order=["weight", "time"])` (comcat.py lines 277, 302). -/
def sortWeightTime (l : List Row) : List Row := List.insertionSort wtLE l

/-- Building the initial rows of `df`: weight, source and time copied from the
raw submissions, `index` the original position (`df["index"] = range(0, nrows)`),
`version` initialized to 0 (comcat.py lines 237-243). -/
def initRows : List Submission → Nat → List Row
  | [], _ => []
  | s :: rest, i =>
      { weight := s.preferredWeight
        source := s.source
        time := s.updateTime
        index := i
        version := 0 } :: initRows rest (i + 1)

/-- The version-assignment walk of comcat.py lines 247-254: walk the sorted
rows keeping the list `psources` of sources already seen and the running
counter `pversion`; a source not yet in `psources` restarts the counter at 1. -/
def assignVersions : List Row → List String → Nat → List Row
  | [], _, _ => []
  | r :: rs, ps, pv =>
      if r.source ∈ ps then
        { r with version := pv } :: assignVersions rs ps (pv + 1)
      else
        { r with version := 1 } :: assignVersions rs (ps ++ [r.source]) 2

/-- The sorted, version-numbered table `df` as it stands after comcat.py
line 254 (the ProductVersionTable of the spec). -/
def versionTable (subs : List Submission) : List Row :=
  assignVersions (sortRows (initRows subs 0)) [] 1

/-- Helper for `numpy.argmax`: scan remaining values keeping the index of the
first maximum seen so far. -/
def argmaxFrom : List Int → Nat → Nat → Int → Nat
  | [], _, best, _ => best
  | x :: xs, i, best, bv =>
      if bv < x then argmaxFrom xs (i + 1) i x
      else argmaxFrom xs (i + 1) best bv

/-- Models `numpy.argmax` on a 1-d array: index of the first occurrence of the
maximum; raises ValueError (modeled as `none`) on an empty array. -/
def argmaxIdx : List Int → Option Nat
  | [] => none
  | x :: xs => some (argmaxFrom xs 1 0 x)

/-- The error kinds `get_product` can raise, by raise site (see module header). -/
inductive PyErr
  | noProductAttr
  | noSourceAttr
  | argmaxValueError
  | iterrowsAttr
  | indexError
deriving DecidableEq, Repr

/-- A resolved `Product` handle: product-type name, assigned version number,
and the chosen raw submission (comcat.py `Product.__init__`). -/
structure Product where
  productName : String
  version : Nat
  sub : Submission
deriving DecidableEq, Repr

/-- The product-type mapping `properties.products` of one event document:
product-type name to ordered submission list (JSON objects preserve
insertion order, modeled as an association list). -/
abbrev EventDoc := List (String × List Submission)

instance {ε α : Type} [DecidableEq ε] [DecidableEq α] : DecidableEq (Except ε α) :=
  fun x y =>
    match x, y with
    | .error e, .error f =>
        if h : e = f then .isTrue (by rw [h])
        else .isFalse (fun hh => by cases hh; exact h rfl)
    | .error _, .ok _ => .isFalse (fun hh => by cases hh)
    | .ok _, .error _ => .isFalse (fun hh => by cases hh)
    | .ok a, .ok b =>
        if h : a = b then .isTrue (by rw [h])
        else .isFalse (fun hh => by cases hh; exact h rfl)

/-- Models `df[df["source"] == s]` : retain rows of one source, preserving order. -/
def srcFilter (s : String) (l : List Row) : List Row :=
  l.filter (fun r => decide (r.source = s))

/-- Models `Product(productName, pversion, self._jdict[...][productName][index])`:
look up the chosen row's original submission and build the handle; an
out-of-range index would raise IndexError (comcat.py lines 280, 285, ...). -/
def mkProduct (subs : List Submission) (name : String) (r : Row) :
    Except PyErr Product :=
  match subs[r.index]? with
  | some s => .ok { productName := name, version := r.version, sub := s }
  | none => .error .indexError

/-- Version resolution for a single-source row group (comcat.py lines
276-299 for one group of the `all` branch, lines 301-324 for the
single-source branch).  The group arrives sorted by time.
`VersionOption.ALL` faithfully reproduces the crash of `df.iterrows()`:
numpy structured arrays have no `iterrows` method, so Python raises
AttributeError before any product is built. -/
def resolveSingle (subs : List Submission) (name : String) (g : List Row) :
    VersionOption → Except PyErr (List Product)
  | .PREFERRED =>
      match (sortWeightTime g).getLast? with
      | some r => (mkProduct subs name r).map (fun p => [p])
      | none => .error .indexError
  | .LAST =>
      match g.getLast? with
      | some r => (mkProduct subs name r).map (fun p => [p])
      | none => .error .indexError
  | .FIRST =>
      match g.head? with
      | some r => (mkProduct subs name r).map (fun p => [p])
      | none => .error .indexError
  | .ALL => .error .iterrowsAttr

/-- Distinct sources of the retained rows (`usources = set(df["source"])`,
comcat.py line 271).  Python set iteration order is unspecified; the model
takes first-occurrence order.  No theorem below depends on this order:
the only claim exercising the multi-source loop fails on its first
iteration, whichever source comes first. -/
def dedupFirstAux : List String → List String → List String
  | [], _ => []
  | x :: xs, seen =>
      if x ∈ seen then dedupFirstAux xs seen
      else x :: dedupFirstAux xs (x :: seen)

def distinctSources (rows : List Row) : List String :=
  dedupFirstAux (rows.map (fun r => r.source)) []

/-- The per-source loop of the `source == 'all'` branch (comcat.py lines
272-299): for each distinct source, filter and time-sort its rows and run
version resolution; an exception aborts the whole call. -/
def resolveAllGroups (subs : List Submission) (name : String) (df2 : List Row)
    (v : VersionOption) : List String → Except PyErr (List Product)
  | [] => .ok []
  | s :: rest => do
      let ps ← resolveSingle subs name (sortTime (srcFilter s df2)) v
      let more ← resolveAllGroups subs name df2 v rest
      pure (ps ++ more)

/-- Models `DetailEvent.get_product` (comcat.py lines 213-326).  `source` is the
Python string parameter (`'preferred'`, `'all'`, or an explicit source id);
`version` the `VersionOption`.  Returns the list of `Product`s or the error
raised. -/
def get_product (doc : EventDoc) (productName : String) (source : String)
    (version : VersionOption) : Except PyErr (List Product) :=
  match List.lookup productName doc with
  | none => .error .noProductAttr
  | some subs =>
      let versioned := versionTable subs
      let step : Except PyErr (List Row) :=
        if source = "preferred" then
          match argmaxIdx (versioned.map (fun r => r.weight)) with
          | none => .error .argmaxValueError
          | some idx =>
              match subs[idx]? with
              | none => .error .indexError
              | some psub => .ok (sortTime (srcFilter psub.source versioned))
        else if source = "all" then .ok versioned
        else .ok (sortTime (srcFilter source versioned))
      match step with
      | .error e => .error e
      | .ok df2 =>
          if df2.isEmpty then .error .noSourceAttr
          else if source = "all" then
            resolveAllGroups subs productName df2 version (distinctSources df2)
          else resolveSingle subs productName df2 version

/-! ### Content lookup (`Product.get_content_name` / `get_content_url`) -/

/-- The sentinel `content_name = "a"*1000` (comcat.py lines 436, 463, 492). -/
def sentinel : String := String.mk (List.replicate 1000 'a')

/-- The scan of `get_content_name` (comcat.py lines 436-446): walk the
content mapping in iteration order; for each key matching the pattern,
derive the file name from the URL and keep it only if strictly shorter
than the current best.  `isMatch` models `re.search(regexp + "$", key)`
and `derive` models `urlparse(url).path.split("/")[-1]`. -/
def contentScan (isMatch : String → Bool) (derive : String → String) :
    List (String × String) → String × Bool → String × Bool
  | [], acc => acc
  | (k, u) :: rest, acc =>
      if isMatch k then
        if (derive u).length < acc.1.length then
          contentScan isMatch derive rest (derive u, true)
        else contentScan isMatch derive rest acc
      else contentScan isMatch derive rest acc

/-- Models `Product.get_content_name` (comcat.py lines 425-450). -/
def get_content_name (isMatch : String → Bool) (derive : String → String)
    (contents : List (String × String)) : Option String :=
  let r := contentScan isMatch derive contents (sentinel, false)
  if r.2 then some r.1 else none

/-- The scan of `get_content_url` (comcat.py lines 463-475), additionally
tracking the URL of the current best name (initialized to `""`). -/
def contentScanUrl (isMatch : String → Bool) (derive : String → String) :
    List (String × String) → String × String × Bool → String × String × Bool
  | [], acc => acc
  | (k, u) :: rest, acc =>
      if isMatch k then
        if (derive u).length < acc.1.length then
          contentScanUrl isMatch derive rest (derive u, u, true)
        else contentScanUrl isMatch derive rest acc
      else contentScanUrl isMatch derive rest acc

/-- Models `Product.get_content_url` (comcat.py lines 452-479). -/
def get_content_url (isMatch : String → Bool) (derive : String → String)
    (contents : List (String × String)) : Option String :=
  let r := contentScanUrl isMatch derive contents (sentinel, "", false)
  if r.2.2 then some r.2.1 else none

/-- The derived file names of the matching content entries, in scan order. -/
def matchedNames (isMatch : String → Bool) (derive : String → String)
    (contents : List (String × String)) : List String :=
  contents.filterMap (fun p => if isMatch p.1 then some (derive p.2) else none)

/-- Combine the head name with the best of the tail, preferring the head on
ties (helper for `firstMinLen`). -/
def minCand (n : String) : Option String → Option String
  | none => some n
  | some m => if m.length < n.length then some m else some n

/-- Spec-side selector for the amended C4: the first name of minimal length
in a list (first-match-wins on equal length). -/
def firstMinLen : List String → Option String
  | [] => none
  | n :: ns => minCand n (firstMinLen ns)

/-! ### Origin-time decomposition (`DetailEvent.time`, `Product.update_time`) -/

/-- Models `time_in_sec = time_in_msec // 1000` (comcat.py lines 145, 363).
Python `//` on ints is floor division, i.e. `Int.fdiv`. -/
def originWholeSeconds (T : Int) : Int := Int.fdiv T 1000

/-- Models `msec = time_in_msec - (time_in_sec * 1000)` (comcat.py lines 146, 364). -/
def originMsecRemainder (T : Int) : Int := T - originWholeSeconds T * 1000

/-! ### Shallow-copy store model (`Product.__init__`, comcat.py line 344)

`self._product = product.copy()` performs a Python `dict.copy()`, which is
shallow: the new top-level dict holds the same references to the nested
`properties` and `contents` dicts.  To make aliasing observable the model
uses an explicit store of dictionaries addressed by `Nat`; a dict value is
either a scalar string or a reference to another dict. -/

inductive Val
  | vstr (s : String)
  | vref (a : Nat)
deriving DecidableEq, Repr

abbrev PyDict := List (String × Val)

structure Store where
  dicts : List PyDict
deriving DecidableEq, Repr

/-- Read the dict at an address (absent addresses read as empty). -/
def Store.getDict (st : Store) (a : Nat) : PyDict := (st.dicts[a]?).getD []

/-- Python `d[k] = v`: replace in place if the key exists (dict order kept),
else append. -/
def dictSet : PyDict → String → Val → PyDict
  | [], k, v => [(k, v)]
  | (k1, v1) :: rest, k, v =>
      if k1 = k then (k1, v) :: rest else (k1, v1) :: dictSet rest k v

/-- Mutate one key of the dict at address `a`. -/
def Store.setKey (st : Store) (a : Nat) (k : String) (v : Val) : Store :=
  ⟨st.dicts.set a (dictSet (st.getDict a) k v)⟩

/-- Allocate a fresh dict, returning the new store and its address. -/
def Store.alloc (st : Store) (d : PyDict) : Store × Nat :=
  (⟨st.dicts ++ [d]⟩, st.dicts.length)

/-- Models `product.copy()`: a fresh top-level dict with the same entries —
scalar values copied, references shared (shallow copy). -/
def copyDict (st : Store) (a : Nat) : Store × Nat := st.alloc (st.getDict a)

/-- Models the `self._product = product.copy()` of `Product.__init__` (comcat.py 344),
given the address of the raw submission dict inside the event document. -/
def productInit (st : Store) (a : Nat) : Store × Nat := copyDict st a

/-- Top-level key lookup in the dict at `a`. -/
def lookup1 (st : Store) (a : Nat) (k : String) : Option Val :=
  List.lookup k (st.getDict a)

/-- Nested lookup: follow the reference stored at `k1`, then read `k2`
there (e.g. `event_product["properties"]["mag"]`). -/
def lookup2 (st : Store) (a : Nat) (k1 k2 : String) : Option Val :=
  match lookup1 st a k1 with
  | some (.vref b) => lookup1 st b k2
  | _ => none

/-! ### Shared helper lemmas -/

set_option maxRecDepth 40000 in
theorem sentinel_length : sentinel.length = 1000 := by decide

/-- Concrete submissions of the worked example in the spec (§8):
`[(source="us", weight=1, t=100), (source="us", weight=2, t=200),
(source="ci", weight=5, t=150)]` for product type "origin". -/
def exSubs : List Submission :=
  [{ preferredWeight := 1, source := "us", updateTime := 100 },
   { preferredWeight := 2, source := "us", updateTime := 200 },
   { preferredWeight := 5, source := "ci", updateTime := 150 }]

def exDoc : EventDoc := [("origin", exSubs)]

/-! ### C7: origin-time decomposition is lossless -/

/-- C7 (confirmed).  For every integer epoch-millisecond value `T`, the
origin-time derivation of `DetailEvent.time` / `Product.update_time`
computes `s = T // 1000` (floor division) and `m = T - s*1000` exactly, so
that `s*1000 + m = T` and `0 ≤ m < 1000`: the epoch-millisecond value is
losslessly reconstructable from the (seconds, milliseconds) decomposition. -/
theorem origin_time_lossless (T : Int) :
    originWholeSeconds T * 1000 + originMsecRemainder T = T
      ∧ 0 ≤ originMsecRemainder T ∧ originMsecRemainder T < 1000 := by
  have how : originWholeSeconds T = Int.fdiv T 1000 := rfl
  have h2 : Int.fdiv T 1000 = T / 1000 := Int.fdiv_eq_ediv T (by norm_num)
  have hed : T % 1000 = T - 1000 * (T / 1000) := Int.emod_def T 1000
  have hnn : 0 ≤ T % 1000 := Int.emod_nonneg T (by norm_num)
  have hlt : T % 1000 < 1000 := Int.emod_lt_of_pos T (by norm_num)
  have hrem : originMsecRemainder T = T % 1000 := by
    unfold originMsecRemainder
    omega
  exact ⟨by unfold originMsecRemainder; ring, by omega, by omega⟩

/-! ### C1: preferred-source selection (code bug) -/

/-- C1 (code_bug).  The claim states that `get_product` with source
`'preferred'` selects the source of the maximum-weight submission — for the
worked example, `"ci"` (weight 5).  The code instead takes
`numpy.argmax(df["weight"])` *after* `df` has been sorted by
(source, time) (line 246) and uses that positional index to subscript the
*original, unsorted* submission list (line 258).  On the example the sorted
order is [ci@150, us@100, us@200], argmax returns position 0, and original
position 0 is the us@100 submission — so the "preferred" source becomes
`"us"` and the returned product is the us@200 row (version 2), not the ci
entry.  (Upstream libcomcat used the pandas label-based `idxmax`, which the
numpy port broke.)  This theorem evaluates the embedded code at the failing
input. -/
theorem get_product_preferred_source_bug :
    get_product exDoc "origin" "preferred" VersionOption.PREFERRED
        = Except.ok [{ productName := "origin", version := 2,
                       sub := { preferredWeight := 2, source := "us", updateTime := 200 } }]
      ∧ ("us" : String) ≠ "ci" := by
  exact ⟨by decide, by decide⟩

/-! ### C2: source=ALL, version=ALL (code bug) -/

/-- C2 (code_bug).  The claim (and the spec) say that source `'all'`
with `VersionOption.ALL` returns exactly the N submitted products.  The
code iterates `df_source.iterrows()` (comcat.py line 293) — a pandas method
that does not exist on numpy structured arrays, left behind when pandas was
removed — so every such call raises `AttributeError` before building any
product.  This theorem evaluates the embedded code at the failing input
(the worked three-submission example, N = 3). -/
theorem get_product_all_all_iterrows_bug :
    get_product exDoc "origin" "all" VersionOption.ALL
      = Except.error PyErr.iterrowsAttr := by
  decide

/-! ### C9: determinism / idempotence of PREFERRED+PREFERRED -/

/-- C9 (confirmed).  `get_product` carries no state between calls: the
embedding is a pure function of the raw document, so calling it twice with
source `'preferred'` and `VersionOption.PREFERRED` yields identical
results, and the result depends only on the raw submission list of the
requested product type (two documents agreeing there agree on the
output). -/
theorem get_product_preferred_idempotent (d d' : EventDoc) (name : String)
    (h : List.lookup name d = List.lookup name d') :
    get_product d name "preferred" VersionOption.PREFERRED
        = get_product d name "preferred" VersionOption.PREFERRED
      ∧ get_product d name "preferred" VersionOption.PREFERRED
        = get_product d' name "preferred" VersionOption.PREFERRED := by
  constructor
  · rfl
  · unfold get_product
    rw [h]

theorem get_product_preferred_idempotent_witness :
    (List.lookup "origin" exDoc
        = List.lookup "origin" (exDoc ++ [("shakemap", [])]))
      ∧ get_product exDoc "origin" "preferred" VersionOption.PREFERRED
        = get_product (exDoc ++ [("shakemap", [])]) "origin" "preferred"
            VersionOption.PREFERRED :=
  ⟨by decide,
   (get_product_preferred_idempotent exDoc (exDoc ++ [("shakemap", [])])
     "origin" (by decide)).2⟩

/-! ### C6: zero submissions (corrected) -/

/-- C6 counterexample.  The claim says a product type with zero
submissions fails with the NotFound error kind for *every* sourceMode.
With sourceMode `'preferred'` the code first calls
`numpy.argmax(df["weight"])` on the empty array (comcat.py line 257), which
raises `ValueError` — a different error kind from the `AttributeError`
(NotFound) raised for an absent type (line 228) or an empty source filter
(line 268). -/
theorem get_product_zero_subs_counterexample :
    get_product [("origin", ([] : List Submission))] "origin" "preferred"
        VersionOption.PREFERRED = Except.error PyErr.argmaxValueError
      ∧ PyErr.argmaxValueError ≠ PyErr.noProductAttr
      ∧ PyErr.argmaxValueError ≠ PyErr.noSourceAttr := by
  exact ⟨by decide, by decide, by decide⟩

/-- C6 amended (corrected).  For a product type present with zero
submissions: sourceMode `'all'` and every explicit source id fail with the
NotFound `AttributeError` of line 268 (the same kind as an empty source
filter), for every version policy; but sourceMode `'preferred'` fails with
the `ValueError` from `numpy.argmax` of an empty sequence. -/
theorem get_product_zero_subs (doc : EventDoc) (name : String)
    (h : List.lookup name doc = some []) :
    (∀ v, get_product doc name "preferred" v = Except.error PyErr.argmaxValueError)
      ∧ (∀ v, get_product doc name "all" v = Except.error PyErr.noSourceAttr)
      ∧ (∀ src, src ≠ "preferred" → src ≠ "all" →
          ∀ v, get_product doc name src v = Except.error PyErr.noSourceAttr) := by
  refine ⟨fun v => ?_, fun v => ?_, fun src h1 h2 v => ?_⟩
  · unfold get_product
    rw [h]
    rfl
  · unfold get_product
    rw [h]
    rfl
  · unfold get_product
    rw [h]
    simp only [if_neg h1, if_neg h2]
    rfl

theorem get_product_zero_subs_witness :
    (List.lookup "origin" [("origin", ([] : List Submission))] = some [])
      ∧ get_product [("origin", ([] : List Submission))] "origin" "nc"
          VersionOption.LAST = Except.error PyErr.noSourceAttr :=
  ⟨by decide,
   (get_product_zero_subs [("origin", [])] "origin" (by decide)).2.2 "nc"
     (by decide) (by decide) VersionOption.LAST⟩

/-! ### C5: Product copy semantics (corrected) -/

/-- Concrete raw event data for the copy-semantics theorems: dict 0 is a raw
submission whose "properties" entry references dict 1 (= {"mag": "6.5"}). -/
def rawStore : Store :=
  ⟨[[("properties", Val.vref 1), ("source", Val.vstr "us")],
    [("mag", Val.vstr "6.5")]]⟩

/-- C5 counterexample.  The claim says any mutation through the Product,
including mutation of the nested properties/contents mappings, leaves the
underlying EventRecord unchanged.  `Product.__init__` does
`self._product = product.copy()` — a *shallow* `dict.copy()` — so the
nested dicts are shared.  Concretely: the Product's copy still references
the event's properties dict (dict 1); after the caller mutates
`product["properties"]["mag"]` to "7.0", reading the *event's* raw data
(`lookup2 ... 0 "properties" "mag"`) yields "7.0" instead of the original
"6.5". -/
theorem product_copy_not_deep :
    lookup1 (productInit rawStore 0).1 (productInit rawStore 0).2 "properties"
        = some (Val.vref 1)
      ∧ lookup2 rawStore 0 "properties" "mag" = some (Val.vstr "6.5")
      ∧ lookup2 ((productInit rawStore 0).1.setKey 1 "mag" (Val.vstr "7.0"))
          0 "properties" "mag" = some (Val.vstr "7.0") := by
  exact ⟨by decide, by decide, by decide⟩

/-- C5 amended (corrected).  The Product holds a *shallow* copy of the
chosen raw submission: (1) mutating any top-level key of the Product's own
dict leaves the event's underlying dict unchanged, but (2) the copy shares
the references to the nested mappings (so nested mutations are visible
through the EventRecord, as the counterexample shows). -/
theorem product_copy_shallow (st : Store) (a : Nat) (h : a < st.dicts.length) :
    (∀ k v, ((productInit st a).1.setKey (productInit st a).2 k v).getDict a
        = st.getDict a)
      ∧ (∀ k1, lookup1 (productInit st a).1 (productInit st a).2 k1
        = lookup1 st a k1) := by
  have hne : st.dicts.length ≠ a := by omega
  constructor
  · intro k v
    show ((((st.dicts ++ [st.getDict a]).set st.dicts.length _)[a]?).getD [])
        = st.getDict a
    rw [List.getElem?_set_ne hne, List.getElem?_append, if_pos h]
    rfl
  · intro k1
    show List.lookup k1 (((st.dicts ++ [st.getDict a])[st.dicts.length]?).getD [])
        = lookup1 st a k1
    rw [List.getElem?_concat_length]
    rfl

theorem product_copy_shallow_witness :
    0 < rawStore.dicts.length
      ∧ ((productInit rawStore 0).1.setKey (productInit rawStore 0).2
          "source" (Val.vstr "nc")).getDict 0 = rawStore.getDict 0 :=
  ⟨by decide,
   (product_copy_shallow rawStore 0 (by decide)).1 "source" (Val.vstr "nc")⟩

/-! ### Content-scan lemmas (for C10 and C4) -/

theorem contentScan_no_shorter (isMatch : String → Bool) (derive : String → String) :
    ∀ (contents : List (String × String)) (acc : String × Bool),
      (∀ k u, (k, u) ∈ contents → isMatch k = true →
        acc.1.length ≤ (derive u).length) →
      contentScan isMatch derive contents acc = acc := by
  intro contents
  induction contents with
  | nil => intro acc _; rfl
  | cons p rest ih =>
      intro acc h
      obtain ⟨k, u⟩ := p
      show contentScan isMatch derive ((k, u) :: rest) acc = acc
      unfold contentScan
      by_cases hm : isMatch k = true
      · have hle : acc.1.length ≤ (derive u).length := h k u (by simp) hm
        rw [if_pos hm, if_neg (by omega)]
        exact ih acc (fun k' u' hmem hm' => h k' u' (by simp [hmem]) hm')
      · rw [if_neg hm]
        exact ih acc (fun k' u' hmem hm' => h k' u' (by simp [hmem]) hm')

theorem contentScanUrl_no_shorter (isMatch : String → Bool) (derive : String → String) :
    ∀ (contents : List (String × String)) (acc : String × String × Bool),
      (∀ k u, (k, u) ∈ contents → isMatch k = true →
        acc.1.length ≤ (derive u).length) →
      contentScanUrl isMatch derive contents acc = acc := by
  intro contents
  induction contents with
  | nil => intro acc _; rfl
  | cons p rest ih =>
      intro acc h
      obtain ⟨k, u⟩ := p
      unfold contentScanUrl
      by_cases hm : isMatch k = true
      · have hle : acc.1.length ≤ (derive u).length := h k u (by simp) hm
        rw [if_pos hm, if_neg (by omega)]
        exact ih acc (fun k' u' hmem hm' => h k' u' (by simp [hmem]) hm')
      · rw [if_neg hm]
        exact ih acc (fun k' u' hmem hm' => h k' u' (by simp [hmem]) hm')

theorem contentScan_length_invariant (isMatch : String → Bool) (derive : String → String) :
    ∀ (contents : List (String × String)) (acc : String × Bool),
      acc.1.length ≤ 1000 → (acc.2 = true → acc.1.length < 1000) →
      (contentScan isMatch derive contents acc).1.length ≤ 1000
        ∧ ((contentScan isMatch derive contents acc).2 = true →
            (contentScan isMatch derive contents acc).1.length < 1000) := by
  intro contents
  induction contents with
  | nil => intro acc h1 h2; exact ⟨h1, h2⟩
  | cons p rest ih =>
      intro acc h1 h2
      obtain ⟨k, u⟩ := p
      unfold contentScan
      by_cases hm : isMatch k = true
      · rw [if_pos hm]
        by_cases hlt : (derive u).length < acc.1.length
        · rw [if_pos hlt]
          exact ih ((derive u), true) (by simp; omega) (by simp; omega)
        · rw [if_neg hlt]
          exact ih acc h1 h2
      · rw [if_neg hm]
        exact ih acc h1 h2

/-! ### C10: the 1000-character sentinel suppresses long matches -/

/-- C10 (confirmed).  If every matching content entry derives a file
name of length at least 1000 characters, `get_content_name` and
`get_content_url` return `none` even though matching entries exist: the
scan starts from the 1000-character sentinel `"a"*1000` and only accepts
strictly shorter names.  Equivalently (last conjunct, for arbitrary
inputs), a returned name always has length strictly below 1000. -/
theorem get_content_name_sentinel_blocks (isMatch : String → Bool)
    (derive : String → String) (contents : List (String × String))
    (h : ∀ k u, (k, u) ∈ contents → isMatch k = true →
      1000 ≤ (derive u).length) :
    get_content_name isMatch derive contents = none
      ∧ get_content_url isMatch derive contents = none
      ∧ ∀ (isM : String → Bool) (der : String → String)
          (cs : List (String × String)) (n : String),
          get_content_name isM der cs = some n → n.length < 1000 := by
  refine ⟨?_, ?_, ?_⟩
  · unfold get_content_name
    rw [contentScan_no_shorter isMatch derive contents (sentinel, false)
      (fun k u hmem hm => by simp [sentinel_length]; exact h k u hmem hm)]
    rfl
  · unfold get_content_url
    rw [contentScanUrl_no_shorter isMatch derive contents (sentinel, "", false)
      (fun k u hmem hm => by simp [sentinel_length]; exact h k u hmem hm)]
    rfl
  · intro isM der cs n hn
    unfold get_content_name at hn
    have hinv := contentScan_length_invariant isM der cs (sentinel, false)
      (by simp [sentinel_length]) (by simp)
    by_cases hf : (contentScan isM der cs (sentinel, false)).2 = true
    · rw [if_pos hf] at hn
      have := hinv.2 hf
      cases hn
      omega
    · rw [if_neg hf] at hn
      cases hn

set_option maxRecDepth 40000 in
theorem longName_length : (String.mk (List.replicate 1000 'x')).length = 1000 := by
  decide

theorem get_content_name_sentinel_blocks_witness :
    (∀ k u, (k, u) ∈ [("grid.xml", "u1")] → (fun (_ : String) => true) k = true →
        1000 ≤ ((fun (_ : String) => String.mk (List.replicate 1000 'x')) u).length)
      ∧ get_content_name (fun _ => true)
          (fun _ => String.mk (List.replicate 1000 'x')) [("grid.xml", "u1")] = none :=
  ⟨fun _ _ _ _ => le_of_eq longName_length.symm,
   (get_content_name_sentinel_blocks (fun _ => true)
     (fun _ => String.mk (List.replicate 1000 'x')) [("grid.xml", "u1")]
     (fun _ _ _ _ => le_of_eq longName_length.symm)).1⟩

/-! ### C4: tie-break on equal length (corrected) -/

set_option maxRecDepth 40000 in
/-- C4 counterexample.  The claim (following the spec) says that among
matching entries whose derived names share the minimum length, the *last*
entry encountered wins.  The comparison at comcat.py line 444 is a strict
`len(fname) < len(content_name)`, so an equal-length later name never
overwrites: the *first* one wins.  Concretely, with two matching entries
both deriving 5-character names "a.xml" then "b.xml", the scan returns
"a.xml" (the first), not "b.xml" (the last). -/
theorem get_content_name_not_last_match :
    get_content_name (fun _ => true) (fun u => u)
        [("ka", "a.xml"), ("kb", "b.xml")] = some "a.xml"
      ∧ ("a.xml" : String) ≠ "b.xml" := by
  exact ⟨by decide, by decide⟩

/-- The name component of the scan, restricted to the matched names. -/
def nameFold : List String → String × Bool → String × Bool
  | [], acc => acc
  | n :: ns, acc =>
      if n.length < acc.1.length then nameFold ns (n, true)
      else nameFold ns acc

/-- The final best name of the scan seeded with current best `cur`. -/
def firstShorter : List String → String → String
  | [], cur => cur
  | n :: ns, cur =>
      if n.length < cur.length then firstShorter ns n
      else firstShorter ns cur

theorem contentScan_cons (isMatch : String → Bool) (derive : String → String)
    (k u : String) (rest : List (String × String)) (acc : String × Bool) :
    contentScan isMatch derive ((k, u) :: rest) acc
      = if isMatch k then
          (if (derive u).length < acc.1.length
            then contentScan isMatch derive rest (derive u, true)
            else contentScan isMatch derive rest acc)
        else contentScan isMatch derive rest acc := rfl

theorem nameFold_cons (n : String) (ns : List String) (acc : String × Bool) :
    nameFold (n :: ns) acc
      = if n.length < acc.1.length then nameFold ns (n, true)
        else nameFold ns acc := rfl

theorem matchedNames_cons_pos (isMatch : String → Bool) (derive : String → String)
    (k u : String) (rest : List (String × String)) (hm : isMatch k = true) :
    matchedNames isMatch derive ((k, u) :: rest)
      = derive u :: matchedNames isMatch derive rest := by
  unfold matchedNames
  exact List.filterMap_cons_some (by simp [hm])

theorem matchedNames_cons_neg (isMatch : String → Bool) (derive : String → String)
    (k u : String) (rest : List (String × String)) (hm : isMatch k = false) :
    matchedNames isMatch derive ((k, u) :: rest)
      = matchedNames isMatch derive rest := by
  unfold matchedNames
  exact List.filterMap_cons_none (by simp [hm])

theorem contentScan_eq_nameFold (isMatch : String → Bool) (derive : String → String) :
    ∀ (contents : List (String × String)) (acc : String × Bool),
      contentScan isMatch derive contents acc
        = nameFold (matchedNames isMatch derive contents) acc := by
  intro contents
  induction contents with
  | nil => intro acc; rfl
  | cons p rest ih =>
      intro acc
      obtain ⟨k, u⟩ := p
      by_cases hm : isMatch k = true
      · rw [contentScan_cons, if_pos hm,
            matchedNames_cons_pos isMatch derive k u rest hm, nameFold_cons]
        by_cases hlt : (derive u).length < acc.1.length
        · rw [if_pos hlt, if_pos hlt, ih]
        · rw [if_neg hlt, if_neg hlt, ih]
      · have hm' : isMatch k = false := by
          cases hb : isMatch k
          · rfl
          · exact absurd hb hm
        rw [contentScan_cons, if_neg hm,
            matchedNames_cons_neg isMatch derive k u rest hm', ih]

theorem nameFold_fst : ∀ (ns : List String) (cur : String) (b : Bool),
    (nameFold ns (cur, b)).1 = firstShorter ns cur := by
  intro ns
  induction ns with
  | nil => intro cur b; rfl
  | cons n ns ih =>
      intro cur b
      unfold nameFold firstShorter
      by_cases hlt : n.length < cur.length
      · rw [if_pos hlt, if_pos hlt]
        exact ih n true
      · rw [if_neg hlt, if_neg hlt]
        exact ih cur b

theorem nameFold_keeps_true : ∀ (ns : List String) (cur : String),
    (nameFold ns (cur, true)).2 = true := by
  intro ns
  induction ns with
  | nil => intro cur; rfl
  | cons n ns ih =>
      intro cur
      unfold nameFold
      by_cases hlt : n.length < cur.length
      · rw [if_pos hlt]
        exact ih n
      · rw [if_neg hlt]
        exact ih cur

theorem nameFold_found : ∀ (ns : List String) (cur : String) (b : Bool),
    (∃ n ∈ ns, n.length < cur.length) → (nameFold ns (cur, b)).2 = true := by
  intro ns
  induction ns with
  | nil =>
      intro cur b h
      obtain ⟨n, hn, _⟩ := h
      cases hn
  | cons n ns ih =>
      intro cur b h
      unfold nameFold
      by_cases hlt : n.length < cur.length
      · rw [if_pos hlt]
        exact nameFold_keeps_true ns n
      · rw [if_neg hlt]
        obtain ⟨m, hm, hml⟩ := h
        rcases List.mem_cons.mp hm with hm | hm
        · exact absurd (hm ▸ hml) hlt
        · exact ih cur b ⟨m, hm, hml⟩

theorem firstShorter_id : ∀ (ns : List String) (cur : String),
    (∀ n ∈ ns, ¬ n.length < cur.length) → firstShorter ns cur = cur := by
  intro ns
  induction ns with
  | nil => intro cur _; rfl
  | cons n ns ih =>
      intro cur h
      unfold firstShorter
      rw [if_neg (h n (by simp))]
      exact ih cur (fun m hm => h m (by simp [hm]))

theorem minCand_none (n : String) : minCand n none = some n := rfl

theorem minCand_some (n m : String) :
    minCand n (some m) = if m.length < n.length then some m else some n := rfl

theorem firstMinLen_cons (n : String) (ns : List String) :
    firstMinLen (n :: ns) = minCand n (firstMinLen ns) := rfl

theorem firstMinLen_none : ∀ (ns : List String), firstMinLen ns = none → ns = [] := by
  intro ns h
  cases ns with
  | nil => rfl
  | cons n ns =>
      exfalso
      rw [firstMinLen_cons] at h
      cases hm : firstMinLen ns <;> rw [hm] at h
      · rw [minCand_none] at h
        cases h
      · rename_i m'
        rw [minCand_some] at h
        by_cases hlt : m'.length < n.length
        · rw [if_pos hlt] at h
          cases h
        · rw [if_neg hlt] at h
          cases h

theorem firstMinLen_spec : ∀ (ns : List String) (m : String),
    firstMinLen ns = some m → m ∈ ns ∧ ∀ x ∈ ns, m.length ≤ x.length := by
  intro ns
  induction ns with
  | nil => intro m h; cases h
  | cons n ns ih =>
      intro m h
      rw [firstMinLen_cons] at h
      cases hm : firstMinLen ns <;> rw [hm] at h
      · rw [minCand_none] at h
        cases h
        have hns : ns = [] := firstMinLen_none ns hm
        subst hns
        exact ⟨by simp, by simp⟩
      · rename_i m'
        rw [minCand_some] at h
        obtain ⟨hmem, hmin⟩ := ih m' hm
        by_cases hlt : m'.length < n.length
        · rw [if_pos hlt] at h
          cases h
          refine ⟨by simp [hmem], ?_⟩
          intro x hx
          rcases List.mem_cons.mp hx with hx | hx
          · subst hx; omega
          · exact hmin x hx
        · rw [if_neg hlt] at h
          cases h
          refine ⟨by simp, ?_⟩
          intro x hx
          rcases List.mem_cons.mp hx with hx | hx
          · subst hx; omega
          · have := hmin x hx; omega

theorem firstShorter_eq_firstMinLen : ∀ (ns : List String) (cur : String),
    (∃ n ∈ ns, n.length < cur.length) →
    firstMinLen ns = some (firstShorter ns cur) := by
  intro ns
  induction ns with
  | nil =>
      intro cur h
      obtain ⟨n, hn, _⟩ := h
      cases hn
  | cons n ns ih =>
      intro cur h
      rw [firstMinLen_cons]
      unfold firstShorter
      by_cases hlt : n.length < cur.length
      · rw [if_pos hlt]
        by_cases hex : ∃ m ∈ ns, m.length < n.length
        · have hfm := ih n hex
          have hspec := firstMinLen_spec ns (firstShorter ns n) hfm
          rw [hfm]
          obtain ⟨m0, hm0, hm0l⟩ := hex
          have hsl : (firstShorter ns n).length < n.length :=
            lt_of_le_of_lt (hspec.2 m0 hm0) hm0l
          rw [minCand_some, if_pos hsl]
        · have hex' : ∀ m ∈ ns, ¬ m.length < n.length :=
            fun m hm hl => hex ⟨m, hm, hl⟩
          have hfs : firstShorter ns n = n := firstShorter_id ns n hex'
          rw [hfs]
          cases hm : firstMinLen ns
          · rw [minCand_none]
          · rename_i m'
            have hspec := firstMinLen_spec ns m' hm
            have hge : ¬ m'.length < n.length := hex' m' hspec.1
            rw [minCand_some, if_neg hge]
      · rw [if_neg hlt]
        have hex : ∃ m ∈ ns, m.length < cur.length := by
          obtain ⟨m, hm, hml⟩ := h
          rcases List.mem_cons.mp hm with hm | hm
          · exact absurd (hm ▸ hml) hlt
          · exact ⟨m, hm, hml⟩
        have hfm := ih cur hex
        have hspec := firstMinLen_spec ns (firstShorter ns cur) hfm
        rw [hfm]
        obtain ⟨m0, hm0, hm0l⟩ := hex
        have hsl : (firstShorter ns cur).length < n.length := by
          have h1 := hspec.2 m0 hm0
          omega
        rw [minCand_some, if_pos hsl]

/-- C4 amended (corrected).  Among the matching content entries,
`get_content_name` returns the derived file name of the *first* entry
encountered that attains the minimum name length — not the last, because
the overwrite test is a strict `<` — provided at least one matching
derived name is shorter than the 1000-character sentinel. -/
theorem get_content_name_first_min (isMatch : String → Bool)
    (derive : String → String) (contents : List (String × String))
    (h : ∃ n ∈ matchedNames isMatch derive contents, n.length < 1000) :
    get_content_name isMatch derive contents
      = firstMinLen (matchedNames isMatch derive contents) := by
  unfold get_content_name
  rw [contentScan_eq_nameFold]
  have h' : ∃ n ∈ matchedNames isMatch derive contents,
      n.length < sentinel.length := by
    rw [sentinel_length]
    exact h
  have hfound := nameFold_found (matchedNames isMatch derive contents)
    sentinel false h'
  simp only [hfound, if_true]
  rw [nameFold_fst]
  exact (firstShorter_eq_firstMinLen (matchedNames isMatch derive contents)
    sentinel h').symm

theorem get_content_name_first_min_witness :
    (∃ n ∈ matchedNames (fun _ => true) (fun u => u)
        [("ka", "a.xml"), ("kb", "b.xml")], n.length < 1000)
      ∧ get_content_name (fun _ => true) (fun u => u)
          [("ka", "a.xml"), ("kb", "b.xml")]
        = firstMinLen (matchedNames (fun _ => true) (fun u => u)
            [("ka", "a.xml"), ("kb", "b.xml")]) :=
  ⟨⟨"a.xml", by decide, by decide⟩,
   get_content_name_first_min (fun _ => true) (fun u => u)
     [("ka", "a.xml"), ("kb", "b.xml")] ⟨"a.xml", by decide, by decide⟩⟩

/-! ### C8: single-source PREFERRED version resolution -/

theorem pairwise_getLast {α : Type} {R : α → α → Prop} :
    ∀ (l : List α) (r : α), List.Pairwise R l → l.getLast? = some r →
      r ∈ l ∧ ∀ x ∈ l, x = r ∨ R x r := by
  intro l
  induction l with
  | nil => intro r _ h; cases h
  | cons a t ih =>
      intro r hp hl
      cases t with
      | nil =>
          have ha : a = r := by simpa using hl
          subst ha
          refine ⟨by simp, ?_⟩
          intro x hx
          rcases List.mem_cons.mp hx with hx | hx
          · exact Or.inl hx
          · cases hx
      | cons b t' =>
          rw [List.getLast?_cons_cons] at hl
          obtain ⟨hmem, hall⟩ := ih r (List.pairwise_cons.mp hp).2 hl
          refine ⟨by simp [hmem], ?_⟩
          intro x hx
          rcases List.mem_cons.mp hx with hx | hx
          · subst hx
            exact Or.inr ((List.pairwise_cons.mp hp).1 r hmem)
          · exact hall x hx

/-- C8 (confirmed).  For a non-empty single-source row group, version
resolution with `VersionOption.PREFERRED` (comcat.py lines 301-306: sort by
(weight, time), take the last row) selects a row of the group of maximum
weight, with ties on weight broken by the latest updateTime, and — whenever
the chosen row's original submission lookup succeeds — emits exactly that
one Product. -/
theorem preferred_version_selects_max (g : List Row) (s : String)
    (hne : g ≠ []) (hsrc : ∀ r ∈ g, r.source = s) :
    ∃ r, (sortWeightTime g).getLast? = some r ∧ r ∈ g
      ∧ (∀ x ∈ g, x.weight ≤ r.weight)
      ∧ (∀ x ∈ g, x.weight = r.weight → x.time ≤ r.time)
      ∧ (∀ (subs : List Submission) (name : String) (p : Product),
          mkProduct subs name r = .ok p →
          resolveSingle subs name g VersionOption.PREFERRED = .ok [p]) := by
  have hperm : (sortWeightTime g).Perm g := List.perm_insertionSort wtLE g
  have hsorted : List.Pairwise wtLE (sortWeightTime g) :=
    List.sorted_insertionSort wtLE g
  have hne2 : sortWeightTime g ≠ [] := by
    intro h0
    have hlen := hperm.length_eq
    rw [h0] at hlen
    exact hne (List.length_eq_zero.mp hlen.symm)
  obtain ⟨r, hr⟩ : ∃ r, (sortWeightTime g).getLast? = some r := by
    cases hq : (sortWeightTime g).getLast? with
    | none => exact absurd (List.getLast?_eq_none_iff.mp hq) hne2
    | some r => exact ⟨r, rfl⟩
  obtain ⟨hmem, hall⟩ := pairwise_getLast (sortWeightTime g) r hsorted hr
  have hmemg : r ∈ g := hperm.mem_iff.mp hmem
  refine ⟨r, hr, hmemg, ?_, ?_, ?_⟩
  · intro x hx
    have hx' : x ∈ sortWeightTime g := hperm.mem_iff.mpr hx
    rcases hall x hx' with hxr | hle
    · subst hxr; omega
    · rcases hle with hlt | ⟨heq, _⟩
      · omega
      · omega
  · intro x hx hw
    have hx' : x ∈ sortWeightTime g := hperm.mem_iff.mpr hx
    rcases hall x hx' with hxr | hle
    · subst hxr; omega
    · rcases hle with hlt | ⟨_, ht⟩
      · omega
      · exact ht
  · intro subs name p hmk
    show (match (sortWeightTime g).getLast? with
      | some r => (mkProduct subs name r).map (fun p => [p])
      | none => Except.error PyErr.indexError) = Except.ok [p]
    rw [hr]
    show Except.map (fun p => [p]) (mkProduct subs name r) = Except.ok [p]
    rw [hmk]
    rfl

def c8rows : List Row :=
  [{ weight := 1, source := "ci", time := 100, index := 0, version := 1 },
   { weight := 2, source := "ci", time := 200, index := 1, version := 2 }]

theorem preferred_version_selects_max_witness :
    (c8rows ≠ [] ∧ ∀ r ∈ c8rows, r.source = "ci")
      ∧ ∃ r, (sortWeightTime c8rows).getLast? = some r ∧ r ∈ c8rows
        ∧ (∀ x ∈ c8rows, x.weight ≤ r.weight)
        ∧ (∀ x ∈ c8rows, x.weight = r.weight → x.time ≤ r.time)
        ∧ (∀ (subs : List Submission) (name : String) (p : Product),
            mkProduct subs name r = .ok p →
            resolveSingle subs name c8rows VersionOption.PREFERRED = .ok [p]) :=
  ⟨⟨by decide, by decide⟩,
   preferred_version_selects_max c8rows "ci" (by decide) (by decide)⟩

/-! ### C3: per-source version numbering -/

/-- Rows labeled with consecutive versions `v, v+1, ...` in list order. -/
def labelFrom : List Row → Nat → List Row
  | [], _ => []
  | r :: rs, v => { r with version := v } :: labelFrom rs (v + 1)

theorem labelFrom_length : ∀ (g : List Row) (v : Nat),
    (labelFrom g v).length = g.length := by
  intro g
  induction g with
  | nil => intro v; rfl
  | cons r rs ih => intro v; simp [labelFrom, ih]

theorem labelFrom_map_version : ∀ (g : List Row) (v : Nat),
    (labelFrom g v).map (fun r => r.version) = List.range' v g.length := by
  intro g
  induction g with
  | nil => intro v; rfl
  | cons r rs ih => intro v; simp [labelFrom, ih, List.range'_succ]

theorem labelFrom_map_source : ∀ (g : List Row) (v : Nat),
    (labelFrom g v).map (fun r => r.source) = g.map (fun r => r.source) := by
  intro g
  induction g with
  | nil => intro v; rfl
  | cons r rs ih => intro v; simp [labelFrom, ih]

theorem labelFrom_map_time : ∀ (g : List Row) (v : Nat),
    (labelFrom g v).map (fun r => r.time) = g.map (fun r => r.time) := by
  intro g
  induction g with
  | nil => intro v; rfl
  | cons r rs ih => intro v; simp [labelFrom, ih]

theorem assignVersions_map_source : ∀ (l : List Row) (ps : List String) (pv : Nat),
    (assignVersions l ps pv).map (fun r => r.source) = l.map (fun r => r.source) := by
  intro l
  induction l with
  | nil => intro ps pv; rfl
  | cons r rs ih =>
      intro ps pv
      unfold assignVersions
      by_cases hr : r.source ∈ ps
      · rw [if_pos hr]
        simp [ih]
      · rw [if_neg hr]
        simp [ih]

theorem assignVersions_cons (r : Row) (rs : List Row) (ps : List String) (pv : Nat) :
    assignVersions (r :: rs) ps pv
      = if r.source ∈ ps then
          { r with version := pv } :: assignVersions rs ps (pv + 1)
        else
          { r with version := 1 } :: assignVersions rs (ps ++ [r.source]) 2 := by
  simp only [assignVersions]

/-- Processing a block of rows whose source is already known: each row takes
the running counter. -/
theorem assignVersions_known (s : String) :
    ∀ (g rest : List Row) (ps : List String) (pv : Nat),
      (∀ x ∈ g, x.source = s) → s ∈ ps →
      assignVersions (g ++ rest) ps pv
        = labelFrom g pv ++ assignVersions rest ps (pv + g.length) := by
  intro g
  induction g with
  | nil =>
      intro rest ps pv _ _
      simp [labelFrom]
  | cons x g ih =>
      intro rest ps pv hg hs
      have hx : x.source = s := hg x (by simp)
      have hxps : x.source ∈ ps := by rw [hx]; exact hs
      show assignVersions (x :: (g ++ rest)) ps pv = _
      rw [assignVersions_cons, if_pos hxps]
      rw [ih rest ps (pv + 1) (fun y hy => hg y (by simp [hy])) hs]
      simp only [labelFrom, List.cons_append, List.length_cons]
      have harith : pv + 1 + g.length = pv + (g.length + 1) := by omega
      rw [harith]

/-- Processing a block of rows of a fresh source: the counter restarts at 1
and the source is appended to `psources`. -/
theorem assignVersions_fresh (s : String) (x : Row) (g rest : List Row)
    (ps : List String) (pv : Nat)
    (hg : ∀ y ∈ x :: g, y.source = s) (hs : s ∉ ps) :
    assignVersions ((x :: g) ++ rest) ps pv
      = labelFrom (x :: g) 1
          ++ assignVersions rest (ps ++ [s]) ((x :: g).length + 1) := by
  have hx : x.source = s := hg x (by simp)
  show assignVersions (x :: (g ++ rest)) ps pv = _
  rw [assignVersions_cons, if_neg (by rw [hx]; exact hs), hx]
  rw [assignVersions_known s g rest (ps ++ [s]) 2
    (fun y hy => hg y (by simp [hy])) (by simp)]
  simp only [labelFrom, List.cons_append, List.length_cons]
  have harith : 2 + g.length = g.length + 1 + 1 := by omega
  rw [harith, hx]

/-- In a (source, time)-sorted list headed by `r`, every row after the
initial block of `r.source` has a different (strictly larger) source. -/
theorem sorted_dropWhile_ne (r : Row) :
    ∀ (t : List Row), List.Pairwise rowLE (r :: t) →
      ∀ x ∈ List.dropWhile (fun y => decide (y.source = r.source)) t,
        x.source ≠ r.source := by
  intro t
  induction t with
  | nil =>
      intro _ x hx
      cases hx
  | cons y t' ih =>
      intro hp x hx
      obtain ⟨hr, hyt⟩ := List.pairwise_cons.mp hp
      by_cases hy : y.source = r.source
      · rw [List.dropWhile_cons_of_pos (by simp [hy])] at hx
        have hp' : List.Pairwise rowLE (r :: t') :=
          List.pairwise_cons.mpr
            ⟨fun z hz => hr z (by simp [hz]), (List.pairwise_cons.mp hyt).2⟩
        exact ih hp' x hx
      · rw [List.dropWhile_cons_of_neg (by simp [hy])] at hx
        have hry : r.source.data < y.source.data := by
          rcases hr y (by simp) with hlt | ⟨heq, _⟩
          · exact hlt
          · exact absurd heq.symm hy
        rcases List.mem_cons.mp hx with hx | hx
        · subst hx
          exact hy
        · have hyx : rowLE y x := (List.pairwise_cons.mp hyt).1 x hx
          have hrx : r.source.data < x.source.data := by
            rcases hyx with hlt | ⟨heq, _⟩
            · exact lt_trans hry hlt
            · rw [← heq]
              exact hry
          intro hcon
          rw [hcon] at hrx
          exact lt_irrefl _ hrx

/-- A (source, time)-sorted nonempty list splits into the leading block of
its head's source followed by rows of strictly different sources. -/
theorem sorted_group_split (r : Row) (t : List Row)
    (hp : List.Pairwise rowLE (r :: t)) :
    ∃ G R, r :: t = (r :: G) ++ R
      ∧ (∀ y ∈ r :: G, y.source = r.source)
      ∧ (∀ x ∈ R, x.source ≠ r.source)
      ∧ List.Pairwise rowLE R
      ∧ R.length ≤ t.length := by
  refine ⟨List.takeWhile (fun y => decide (y.source = r.source)) t,
          List.dropWhile (fun y => decide (y.source = r.source)) t,
          ?_, ?_, ?_, ?_, ?_⟩
  · rw [List.cons_append, List.takeWhile_append_dropWhile]
  · intro y hy
    rcases List.mem_cons.mp hy with hy | hy
    · rw [hy]
    · have h2 := List.mem_takeWhile_imp hy
      simpa using h2
  · exact sorted_dropWhile_ne r t hp
  · exact List.Pairwise.sublist
      ((List.dropWhile_sublist _).trans (List.sublist_cons_self r t)) hp
  · exact (List.dropWhile_sublist _).length_le

/-- The key invariant behind the version table: running the version
assignment over a (source, time)-sorted list whose sources are disjoint
from the already-seen `psources` gives, for every source `s`, exactly the
rows of `s` labeled `1, 2, 3, ...` in order. -/
theorem assignVersions_filter_eq :
    ∀ (n : Nat) (l : List Row) (ps : List String) (pv : Nat),
      l.length ≤ n → List.Pairwise rowLE l → (∀ r ∈ l, r.source ∉ ps) →
      ∀ s, (assignVersions l ps pv).filter (fun x => decide (x.source = s))
        = labelFrom (l.filter (fun x => decide (x.source = s))) 1 := by
  intro n
  induction n with
  | zero =>
      intro l ps pv hlen _ _ s
      have hnil : l = [] := List.length_eq_zero.mp (Nat.le_zero.mp hlen)
      subst hnil
      rfl
  | succ n ih =>
      intro l ps pv hlen hp hps s
      cases l with
      | nil => rfl
      | cons r t =>
          obtain ⟨G, R, hsplit, hGsrc, hRne, hpR, hlenR⟩ := sorted_group_split r t hp
          have hrps : r.source ∉ ps := hps r (by simp)
          rw [hsplit, assignVersions_fresh r.source r G R ps pv hGsrc hrps,
              List.filter_append, List.filter_append]
          have hpsR : ∀ x ∈ R, x.source ∉ ps ++ [r.source] := by
            intro x hx
            have hx2 : x ∈ r :: t := by
              rw [hsplit]
              exact List.mem_append_right _ hx
            have h1 : x.source ∉ ps := hps x hx2
            have h2 : x.source ≠ r.source := hRne x hx
            simp [List.mem_append, h1, h2]
          have hlen2 : R.length ≤ n := by
            have ht : t.length + 1 ≤ n + 1 := by simpa using hlen
            omega
          have hrec := ih R (ps ++ [r.source]) ((r :: G).length + 1) hlen2 hpR hpsR s
          by_cases hss : s = r.source
          · have hfG : (labelFrom (r :: G) 1).filter (fun x => decide (x.source = s))
                = labelFrom (r :: G) 1 := by
              apply List.filter_eq_self.mpr
              intro a ha
              have hmap : a.source ∈ (labelFrom (r :: G) 1).map (fun x => x.source) :=
                List.mem_map_of_mem _ ha
              rw [labelFrom_map_source] at hmap
              obtain ⟨b, hb, hba⟩ := List.mem_map.mp hmap
              have has : a.source = r.source := by
                rw [← hba]
                exact hGsrc b hb
              simp [has, hss]
            have hfR : (assignVersions R (ps ++ [r.source]) ((r :: G).length + 1)).filter
                (fun x => decide (x.source = s)) = [] := by
              apply List.filter_eq_nil_iff.mpr
              intro a ha
              have hmap : a.source
                  ∈ (assignVersions R (ps ++ [r.source]) ((r :: G).length + 1)).map
                      (fun x => x.source) :=
                List.mem_map_of_mem _ ha
              rw [assignVersions_map_source] at hmap
              obtain ⟨b, hb, hba⟩ := List.mem_map.mp hmap
              have hne2 : a.source ≠ r.source := by
                rw [← hba]
                exact hRne b hb
              simp only [decide_eq_true_eq]
              intro hcon
              exact hne2 (by rw [hcon, hss])
            have hfG2 : (r :: G).filter (fun x => decide (x.source = s)) = r :: G :=
              List.filter_eq_self.mpr (fun a ha => by simp [hGsrc a ha, hss])
            have hfR2 : R.filter (fun x => decide (x.source = s)) = [] :=
              List.filter_eq_nil_iff.mpr (fun a ha => by
                simp only [decide_eq_true_eq]
                intro hcon
                exact hRne a ha (hcon.trans hss))
            rw [hfG, hfR, hfG2, hfR2, List.append_nil, List.append_nil]
          · have hfG : (labelFrom (r :: G) 1).filter (fun x => decide (x.source = s))
                = [] := by
              apply List.filter_eq_nil_iff.mpr
              intro a ha
              have hmap : a.source ∈ (labelFrom (r :: G) 1).map (fun x => x.source) :=
                List.mem_map_of_mem _ ha
              rw [labelFrom_map_source] at hmap
              obtain ⟨b, hb, hba⟩ := List.mem_map.mp hmap
              have has : a.source = r.source := by
                rw [← hba]
                exact hGsrc b hb
              simp only [decide_eq_true_eq]
              intro hcon
              exact hss (by rw [← hcon, has])
            have hfG2 : (r :: G).filter (fun x => decide (x.source = s)) = [] :=
              List.filter_eq_nil_iff.mpr (fun a ha => by
                simp only [decide_eq_true_eq]
                intro hcon
                exact hss (by rw [← hcon, hGsrc a ha]))
            rw [hfG, hfG2, List.nil_append, List.nil_append, hrec]

theorem initRows_filter_length (s : String) : ∀ (subs : List Submission) (i : Nat),
    ((initRows subs i).filter (fun r => decide (r.source = s))).length
      = (subs.filter (fun x => decide (x.source = s))).length := by
  intro subs
  induction subs with
  | nil => intro i; rfl
  | cons x xs ih =>
      intro i
      simp only [initRows, List.filter_cons]
      by_cases hx : x.source = s
      · rw [if_pos (by simp [hx]), if_pos (by simp [hx])]
        simp [ih]
      · rw [if_neg (by simp [hx]), if_neg (by simp [hx])]
        exact ih (i + 1)

/-- C3 (confirmed).  For every submission list and every source `s`, the
rows of `s` in the version table appear in ascending updateTime order
carrying exactly the version numbers `1, 2, 3, ...` with no gaps (the
numbering restarts at 1 independently for every source, since this holds
for all `s` simultaneously), and there are exactly as many of them as
submissions of source `s`. -/
theorem versionTable_per_source (subs : List Submission) (s : String) :
    ((versionTable subs).filter (fun r => decide (r.source = s))).map
        (fun r => r.version)
      = List.range' 1
          ((versionTable subs).filter (fun r => decide (r.source = s))).length
    ∧ List.Pairwise (fun a b : Row => a.time ≤ b.time)
        ((versionTable subs).filter (fun r => decide (r.source = s)))
    ∧ ((versionTable subs).filter (fun r => decide (r.source = s))).length
      = (subs.filter (fun x => decide (x.source = s))).length := by
  have hp : List.Pairwise rowLE (sortRows (initRows subs 0)) :=
    List.sorted_insertionSort rowLE (initRows subs 0)
  have hmain := assignVersions_filter_eq (sortRows (initRows subs 0)).length
    (sortRows (initRows subs 0)) [] 1 le_rfl hp (by intro r _; simp) s
  have hvt : versionTable subs = assignVersions (sortRows (initRows subs 0)) [] 1 := rfl
  have hflen : ((versionTable subs).filter (fun r => decide (r.source = s))).length
      = (subs.filter (fun x => decide (x.source = s))).length := by
    rw [hvt, hmain, labelFrom_length]
    have hperm : (sortRows (initRows subs 0)).Perm (initRows subs 0) :=
      List.perm_insertionSort rowLE _
    rw [(hperm.filter (fun x => decide (x.source = s))).length_eq]
    exact initRows_filter_length s subs 0
  refine ⟨?_, ?_, hflen⟩
  · rw [hvt, hmain, labelFrom_map_version, labelFrom_length]
  · rw [hvt, hmain]
    have hsub : List.Pairwise rowLE
        ((sortRows (initRows subs 0)).filter (fun x => decide (x.source = s))) :=
      List.Pairwise.sublist (List.filter_sublist _) hp
    have htimeF : List.Pairwise (fun a b : Row => a.time ≤ b.time)
        ((sortRows (initRows subs 0)).filter (fun x => decide (x.source = s))) := by
      apply List.Pairwise.imp_of_mem ?_ hsub
      intro a b ha hb hab
      have ha2 : a.source = s := of_decide_eq_true (List.mem_filter.mp ha).2
      have hb2 : b.source = s := of_decide_eq_true (List.mem_filter.mp hb).2
      rcases hab with hlt | ⟨_, ht⟩
      · exfalso
        have heq : a.source = b.source := by rw [ha2, hb2]
        rw [heq] at hlt
        exact lt_irrefl _ hlt
      · exact ht
    have h1 : List.Pairwise (fun a b : Int => a ≤ b)
        (((sortRows (initRows subs 0)).filter
          (fun x => decide (x.source = s))).map (fun r => r.time)) :=
      List.pairwise_map.mpr htimeF
    rw [← labelFrom_map_time _ 1] at h1
    exact List.pairwise_map.mp h1

end EEWComcat
